import Mathlib

/-!
Verification of the two polling/iteration protocols of `wrapped-connex`
(`src/index.ts`): receipt-confirmation polling (`waitForReceipt`) and
cursor-based event pagination (`fetchEvents`), plus the ABI partitioning
performed by `getContract`.

The chain client is modelled as pure oracles:
* `getReceipt : String → Nat → Option Receipt` — the response of the
  receipt query for a given transaction id made after the (i+1)-th tick
  (index `i` counts the queries issued, starting at 0);
* a filter is `applyF : Nat → Nat → List α` — the page of event rows
  returned by `filter.apply(offset, limit)`;
* the page callback is `cb : List α → Bool` — `true` when the async
  callback resolves, `false` when it rejects.
-/

namespace WrappedConnex

/-- Outcome of a mined transaction: the `reverted` flag plus an opaque
payload standing for the remaining receipt fields. Mirrors the use of
`Connex.Thor.Transaction.Receipt` in `waitForReceipt`. -/
structure Receipt where
  reverted : Bool
  payload : Nat
  deriving DecidableEq, Repr

/-- Result of `waitForReceipt`: `notFound` models
`throw new Error("Transaction not found.")`, `revertedTx` models
`throw new Error("The transaction has been reverted.")`, and
`confirmed r` models `return receipt`. -/
inductive WaitResult where
  | notFound
  | revertedTx
  | confirmed (r : Receipt)
  deriving DecidableEq, Repr

/-- The body of the `for (let i = 0; ; i++)` loop of `waitForReceipt`
(src/index.ts lines 313-329), instrumented with the number of ticks
consumed (`t`, one per `await ticker.next()`) and of receipt queries
issued (`q`, one per `getReceipt()` call).  The counter `i` is tested
against `iterations` before a tick is consumed; on `env i = some r` the
loop throws `revertedTx` when `r.reverted` and otherwise returns `r`;
on `none` it continues with `i + 1`. -/
def waitLoop (env : Nat → Option Receipt) (iterations : Nat) (i t q : Nat) :
    WaitResult × Nat × Nat :=
  if h : i ≥ iterations then
    (WaitResult.notFound, t, q)
  else
    match env i with
    | some r =>
      if r.reverted then (WaitResult.revertedTx, t + 1, q + 1)
      else (WaitResult.confirmed r, t + 1, q + 1)
    | none => waitLoop env iterations (i + 1) (t + 1) (q + 1)
termination_by iterations - i
decreasing_by omega

/-- `waitForReceipt(txId, iterations)` (src/index.ts lines 307-330):
runs `waitLoop` from `i = 0` with zero ticks and zero queries consumed,
against the receipt oracle for `txId`.  Returns the outcome together
with the number of ticks consumed and receipt queries issued. -/
def waitForReceipt (getReceipt : String → Nat → Option Receipt)
    (txId : String) (iterations : Nat) : WaitResult × Nat × Nat :=
  waitLoop (getReceipt txId) iterations 0 0 0

theorem waitLoop_base (env : Nat → Option Receipt) (iterations i t q : Nat)
    (h : i ≥ iterations) :
    waitLoop env iterations i t q = (WaitResult.notFound, t, q) := by
  rw [waitLoop]
  simp [h]

theorem waitLoop_step (env : Nat → Option Receipt) (iterations i t q : Nat)
    (h : i < iterations) :
    waitLoop env iterations i t q =
      match env i with
      | some r =>
        if r.reverted then (WaitResult.revertedTx, t + 1, q + 1)
        else (WaitResult.confirmed r, t + 1, q + 1)
      | none => waitLoop env iterations (i + 1) (t + 1) (q + 1) := by
  rw [waitLoop]
  simp [Nat.not_le.mpr h]

/-- If the oracle answers `none` on every query index in `[i, iterations)`,
the loop exits with `notFound` after `iterations - i` more ticks and
queries. -/
theorem waitLoop_all_none (env : Nat → Option Receipt) (iterations : Nat) :
    ∀ d i t q, iterations = i + d →
      (∀ k, i ≤ k → k < iterations → env k = none) →
      waitLoop env iterations i t q = (WaitResult.notFound, t + d, q + d) := by
  intro d
  induction d with
  | zero =>
    intro i t q hiter _
    rw [waitLoop_base env iterations i t q (by omega)]
    simp
  | succ d ih =>
    intro i t q hiter hnone
    rw [waitLoop_step env iterations i t q (by omega)]
    rw [hnone i (Nat.le_refl i) (by omega)]
    rw [ih (i + 1) (t + 1) (q + 1) (by omega)
      (fun k hk hk2 => hnone k (by omega) hk2)]
    simp only [Prod.mk.injEq]
    refine ⟨trivial, ?_, ?_⟩ <;> omega

/-- If the oracle answers `none` on every query index in `[i, j)` and
`some r` at index `j < iterations`, the loop exits after `j - i + 1`
more ticks and queries: with `revertedTx` when `r.reverted`, otherwise
confirming `r`. -/
theorem waitLoop_first_some (env : Nat → Option Receipt) (iterations j : Nat)
    (r : Receipt) (hj : j < iterations) (hr : env j = some r) :
    ∀ d i t q, j = i + d →
      (∀ k, i ≤ k → k < j → env k = none) →
      waitLoop env iterations i t q =
        ((if r.reverted then WaitResult.revertedTx else WaitResult.confirmed r),
          t + d + 1, q + d + 1) := by
  intro d
  induction d with
  | zero =>
    intro i t q hji _
    have hi : i = j := by omega
    subst hi
    rw [waitLoop_step env iterations i t q hj, hr]
    cases hrev : r.reverted <;> simp [hrev]
  | succ d ih =>
    intro i t q hji hnone
    rw [waitLoop_step env iterations i t q (by omega)]
    rw [hnone i (Nat.le_refl i) (by omega)]
    rw [ih (i + 1) (t + 1) (q + 1) (by omega)
      (fun k hk hk2 => hnone k (by omega) hk2)]
    simp only [Prod.mk.injEq]
    refine ⟨trivial, ?_, ?_⟩ <;> omega

/-- C1: for every transaction id and every `maxTicks = N > 0`, if the
receipt query returns no receipt on each of the first N ticks, then
`waitForReceipt` consumes exactly N ticks and N receipt queries and
fails with `NotFound`. -/
theorem waitForReceipt_notFound_after_maxTicks
    (getReceipt : String → Nat → Option Receipt) (txId : String) (N : Nat)
    (hN : 0 < N) (hnone : ∀ k, k < N → getReceipt txId k = none) :
    waitForReceipt getReceipt txId N = (WaitResult.notFound, N, N) := by
  unfold waitForReceipt
  rw [waitLoop_all_none (getReceipt txId) N N 0 0 0 (by omega)
    (fun k _ hk2 => hnone k hk2)]
  simp

theorem waitForReceipt_notFound_after_maxTicks_ex :
    waitForReceipt (fun _ _ => none) (String.mk []) 3
      = (WaitResult.notFound, 3, 3) :=
  waitForReceipt_notFound_after_maxTicks (fun _ _ => none) (String.mk []) 3
    (by decide) (fun k _ => rfl)

/-- C2: for every transaction id, `waitForReceipt` with `maxTicks = 0`
fails immediately with `NotFound`, consuming zero ticks and issuing zero
receipt queries. -/
theorem waitForReceipt_zero_maxTicks
    (getReceipt : String → Nat → Option Receipt) (txId : String) :
    waitForReceipt getReceipt txId 0 = (WaitResult.notFound, 0, 0) := by
  unfold waitForReceipt
  exact waitLoop_base (getReceipt txId) 0 0 0 0 (Nat.le_refl 0)

/-- C3: if the receipt first appears on tick `k = j + 1 ≤ N` (the query
after the j-th earlier tick returned nothing) and is reverted, then
`waitForReceipt` fails with `Reverted` having consumed exactly `k` ticks
and issued exactly `k` receipt queries — no further tick or query. -/
theorem waitForReceipt_reverted_at_tick
    (getReceipt : String → Nat → Option Receipt) (txId : String)
    (N j : Nat) (r : Receipt) (hj : j < N)
    (hr : getReceipt txId j = some r) (hrev : r.reverted = true)
    (hnone : ∀ k, k < j → getReceipt txId k = none) :
    waitForReceipt getReceipt txId N = (WaitResult.revertedTx, j + 1, j + 1) := by
  unfold waitForReceipt
  rw [waitLoop_first_some (getReceipt txId) N j r hj hr j 0 0 0 (by omega)
    (fun k _ hk2 => hnone k hk2)]
  simp [hrev]

theorem waitForReceipt_reverted_at_tick_ex :
    waitForReceipt
      (fun _ i => if i = 1 then some ⟨true, 7⟩ else none) (String.mk []) 5
      = (WaitResult.revertedTx, 2, 2) :=
  waitForReceipt_reverted_at_tick
    (fun _ i => if i = 1 then some ⟨true, 7⟩ else none) (String.mk [])
    5 1 ⟨true, 7⟩ (by decide) rfl rfl
    (fun k hk => by interval_cases k <;> rfl)

/-- C4: if the receipt first appears on tick `k = j + 1 ≤ N` and is not
reverted, `waitForReceipt` succeeds with exactly that receipt, having
consumed exactly `k` ticks and issued exactly `k` receipt queries. -/
theorem waitForReceipt_confirmed_at_tick
    (getReceipt : String → Nat → Option Receipt) (txId : String)
    (N j : Nat) (r : Receipt) (hj : j < N)
    (hr : getReceipt txId j = some r) (hrev : r.reverted = false)
    (hnone : ∀ k, k < j → getReceipt txId k = none) :
    waitForReceipt getReceipt txId N
      = (WaitResult.confirmed r, j + 1, j + 1) := by
  unfold waitForReceipt
  rw [waitLoop_first_some (getReceipt txId) N j r hj hr j 0 0 0 (by omega)
    (fun k _ hk2 => hnone k hk2)]
  simp [hrev]

theorem waitForReceipt_confirmed_at_tick_ex :
    waitForReceipt
      (fun _ i => if i = 2 then some ⟨false, 9⟩ else none) (String.mk []) 5
      = (WaitResult.confirmed ⟨false, 9⟩, 3, 3) :=
  waitForReceipt_confirmed_at_tick
    (fun _ i => if i = 2 then some ⟨false, 9⟩ else none) (String.mk [])
    5 2 ⟨false, 9⟩ (by decide) rfl rfl
    (fun k hk => by interval_cases k <;> rfl)

/-- Result of `fetchEvents`: `ok` models normal resolution of the
promise, `consumerFailure` models the rejection propagated from a
failing `callback` invocation. -/
inductive FetchResult where
  | ok
  | consumerFailure
  deriving DecidableEq, Repr

/-- The `for (;;)` loop of `fetchEvents` (src/index.ts lines 379-387),
instrumented with the trace of pages passed to `callback` and of the
offsets at which `filter.apply(offset, limit)` was invoked, and run on
`fuel` remaining iterations (`none` means the loop did not terminate
within `fuel` iterations).  Each iteration applies the filter at the
current offset; an empty page breaks the loop (success); otherwise the
callback runs on the page — rejection propagates — and the offset
advances by exactly `limit`. -/
def fetchLoop (applyF : Nat → Nat → List α) (cb : List α → Bool)
    (limit : Nat) : Nat → Nat → Option (FetchResult × List (List α) × List Nat)
  | _, 0 => none
  | offset, fuel + 1 =>
    let events := applyF offset limit
    if events.length = 0 then
      some (FetchResult.ok, [], [offset])
    else if cb events then
      match fetchLoop applyF cb limit (offset + limit) fuel with
      | some (res, pages, offsets) =>
        some (res, events :: pages, offset :: offsets)
      | none => none
    else
      some (FetchResult.consumerFailure, [events], [offset])

/-- `fetchEvents(filter, callback, limit)` (src/index.ts lines 372-388):
runs the pagination loop from `offset = 0`.  On termination returns the
outcome, the list of pages passed to `callback` (in call order) and the
list of offsets at which the filter was applied (in call order). -/
def fetchEvents (applyF : Nat → Nat → List α) (cb : List α → Bool)
    (limit fuel : Nat) : Option (FetchResult × List (List α) × List Nat) :=
  fetchLoop applyF cb limit 0 fuel

theorem range_map_shift {β : Type _} (g : Nat → β) (k : Nat) :
    (List.range (k + 1)).map g = g 0 :: (List.range k).map (fun j => g (j + 1)) := by
  rw [List.range_succ_eq_map]
  simp [List.map_map, Function.comp]

/-- If the filter yields non-empty pages at `offset + j * limit` for all
`j < k`, the callback accepts each of them, and the page at
`offset + k * limit` is empty, then the loop started at `offset` with
more than `k` iterations of fuel succeeds, the callback receiving
exactly the `k` non-empty pages in offset order and the filter being
applied at exactly the offsets `offset + j * limit`, `j = 0 … k`. -/
theorem fetchLoop_ok (applyF : Nat → Nat → List α) (cb : List α → Bool)
    (limit : Nat) :
    ∀ k offset fuel, k < fuel →
      applyF (offset + k * limit) limit = [] →
      (∀ j, j < k → applyF (offset + j * limit) limit ≠ []) →
      (∀ j, j < k → cb (applyF (offset + j * limit) limit) = true) →
      fetchLoop applyF cb limit offset fuel =
        some (FetchResult.ok,
          (List.range k).map (fun j => applyF (offset + j * limit) limit),
          (List.range (k + 1)).map (fun j => offset + j * limit)) := by
  intro k
  induction k with
  | zero =>
    intro offset fuel hfuel hempty _ _
    match fuel, hfuel with
    | fuel + 1, _ =>
      simp only [Nat.zero_mul, Nat.add_zero] at hempty
      simp [fetchLoop, hempty, List.range_succ]
  | succ k ih =>
    intro offset fuel hfuel hempty hne hcb
    match fuel, hfuel with
    | fuel + 1, hfuel =>
      have h0 : applyF offset limit ≠ [] := by
        have := hne 0 (Nat.succ_pos k)
        simpa using this
      have hc0 : cb (applyF offset limit) = true := by
        have := hcb 0 (Nat.succ_pos k)
        simpa using this
      have hrec := ih (offset + limit) fuel (by omega)
        (by rw [show offset + limit + k * limit = offset + (k + 1) * limit by ring]
            exact hempty)
        (by intro j hj
            rw [show offset + limit + j * limit = offset + (j + 1) * limit by ring]
            exact hne (j + 1) (by omega))
        (by intro j hj
            rw [show offset + limit + j * limit = offset + (j + 1) * limit by ring]
            exact hcb (j + 1) (by omega))
      rw [fetchLoop]
      rw [if_neg (show ¬(applyF offset limit).length = 0 from by simpa using h0),
        if_pos hc0, hrec]
      simp only [Option.some.injEq, Prod.mk.injEq, true_and]
      constructor
      · rw [range_map_shift (fun j => applyF (offset + j * limit) limit) k]
        congr 1
        · simp
        · apply List.map_congr_left
          intro a _
          congr 1
          ring
      · rw [range_map_shift (fun j => offset + j * limit) (k + 1)]
        congr 1
        · simp
        · apply List.map_congr_left
          intro a _
          ring

/-- If the filter yields non-empty pages at `offset + m * limit` for all
`m ≤ j`, the callback accepts the first `j` of them and rejects the one
at `offset + j * limit`, then the loop started at `offset` with more
than `j` iterations of fuel stops with `consumerFailure`: the callback
received exactly the pages `0 … j` and the filter was applied at exactly
the offsets `offset + m * limit`, `m = 0 … j` — nothing past the failing
page. -/
theorem fetchLoop_consumerFailure (applyF : Nat → Nat → List α)
    (cb : List α → Bool) (limit : Nat) :
    ∀ j offset fuel, j < fuel →
      (∀ m, m ≤ j → applyF (offset + m * limit) limit ≠ []) →
      (∀ m, m < j → cb (applyF (offset + m * limit) limit) = true) →
      cb (applyF (offset + j * limit) limit) = false →
      fetchLoop applyF cb limit offset fuel =
        some (FetchResult.consumerFailure,
          (List.range (j + 1)).map (fun m => applyF (offset + m * limit) limit),
          (List.range (j + 1)).map (fun m => offset + m * limit)) := by
  intro j
  induction j with
  | zero =>
    intro offset fuel hfuel hne _ hfail
    match fuel, hfuel with
    | fuel + 1, _ =>
      have h0 : applyF offset limit ≠ [] := by
        have := hne 0 (Nat.le_refl 0)
        simpa using this
      have hf0 : cb (applyF offset limit) = false := by simpa using hfail
      rw [fetchLoop]
      rw [if_neg (show ¬(applyF offset limit).length = 0 from by simpa using h0),
        if_neg (show ¬cb (applyF offset limit) = true from by simp [hf0])]
      simp [List.range_succ]
  | succ j ih =>
    intro offset fuel hfuel hne hcb hfail
    match fuel, hfuel with
    | fuel + 1, hfuel =>
      have h0 : applyF offset limit ≠ [] := by
        have := hne 0 (Nat.zero_le _)
        simpa using this
      have hc0 : cb (applyF offset limit) = true := by
        have := hcb 0 (Nat.succ_pos j)
        simpa using this
      have hrec := ih (offset + limit) fuel (by omega)
        (by intro m hm
            rw [show offset + limit + m * limit = offset + (m + 1) * limit by ring]
            exact hne (m + 1) (by omega))
        (by intro m hm
            rw [show offset + limit + m * limit = offset + (m + 1) * limit by ring]
            exact hcb (m + 1) (by omega))
        (by rw [show offset + limit + j * limit = offset + (j + 1) * limit by ring]
            exact hfail)
      rw [fetchLoop]
      rw [if_neg (show ¬(applyF offset limit).length = 0 from by simpa using h0),
        if_pos hc0, hrec]
      simp only [Option.some.injEq, Prod.mk.injEq, true_and]
      constructor
      · rw [range_map_shift (fun m => applyF (offset + m * limit) limit) (j + 1)]
        congr 1
        · simp
        · apply List.map_congr_left
          intro a _
          congr 1
          ring
      · rw [range_map_shift (fun m => offset + m * limit) (j + 1)]
        congr 1
        · simp
        · apply List.map_congr_left
          intro a _
          ring

/-- C5: for every filter and pageSize, if the filter yields non-empty
pages at the offsets `0, pageSize, …, (k-1)*pageSize`, the callback
completes on each, and the page at `k*pageSize` is empty, then
`fetchEvents` invokes `onPage` with exactly those pages in offset order,
advancing the offset by exactly `pageSize` after each non-empty page
(regardless of the length of the page), and stops at the first empty
page. -/
theorem fetchEvents_pages_in_offset_order (applyF : Nat → Nat → List α)
    (cb : List α → Bool) (limit fuel k : Nat) (hfuel : k < fuel)
    (hempty : applyF (k * limit) limit = [])
    (hne : ∀ j, j < k → applyF (j * limit) limit ≠ [])
    (hcb : ∀ j, j < k → cb (applyF (j * limit) limit) = true) :
    fetchEvents applyF cb limit fuel =
      some (FetchResult.ok,
        (List.range k).map (fun j => applyF (j * limit) limit),
        (List.range (k + 1)).map (fun j => j * limit)) := by
  have h := fetchLoop_ok applyF cb limit k 0 fuel hfuel
    (by simpa using hempty)
    (fun j hj => by simpa using hne j hj)
    (fun j hj => by simpa using hcb j hj)
  unfold fetchEvents
  rw [h]
  simp

theorem fetchEvents_pages_in_offset_order_ex :
    fetchEvents
      (fun o _ => if o = 0 then [1, 2] else if o = 20 then [3] else [])
      (fun _ => true) 20 3
      = some (FetchResult.ok, [[1, 2], [3]], [0, 20, 40]) := by
  rw [fetchEvents_pages_in_offset_order
    (fun o _ => if o = 0 then [1, 2] else if o = 20 then [3] else ([] : List Nat))
    (fun _ => true) 20 3 2 (by decide) (by decide)
    (fun j hj => by interval_cases j <;> decide)
    (fun j hj => by interval_cases j <;> decide)]
  decide

/-- C6: for every filter, if the page returned at offset 0 is empty,
`fetchEvents` completes successfully, `onPage` is invoked zero times,
and the filter is applied exactly once (at offset 0). -/
theorem fetchEvents_empty_first_page (applyF : Nat → Nat → List α)
    (cb : List α → Bool) (limit fuel : Nat) (hfuel : 0 < fuel)
    (hempty : applyF 0 limit = []) :
    fetchEvents applyF cb limit fuel = some (FetchResult.ok, [], [0]) := by
  have h := fetchLoop_ok applyF cb limit 0 0 fuel hfuel
    (by simpa using hempty)
    (fun j hj => absurd hj (Nat.not_lt_zero j))
    (fun j hj => absurd hj (Nat.not_lt_zero j))
  unfold fetchEvents
  rw [h]
  simp [List.range_succ]

theorem fetchEvents_empty_first_page_ex :
    fetchEvents (fun _ _ => ([] : List Nat)) (fun _ => true) 20 1
      = some (FetchResult.ok, [], [0]) :=
  fetchEvents_empty_first_page (fun _ _ => ([] : List Nat)) (fun _ => true)
    20 1 (by decide) rfl

/-- C7: for every filter and pageSize, if the callback completes on the
pages at offsets `0, …, (j-1)*pageSize` and fails on the page at
`j*pageSize` (all of them non-empty), then `fetchEvents` propagates the
failure: the filter is applied exactly at offsets `0, …, j*pageSize`
(never for page j+1) and `onPage` is invoked exactly on the pages
`0, …, j` (none after the failing one). -/
theorem fetchEvents_callback_failure_stops (applyF : Nat → Nat → List α)
    (cb : List α → Bool) (limit fuel j : Nat) (hfuel : j < fuel)
    (hne : ∀ m, m ≤ j → applyF (m * limit) limit ≠ [])
    (hcb : ∀ m, m < j → cb (applyF (m * limit) limit) = true)
    (hfail : cb (applyF (j * limit) limit) = false) :
    fetchEvents applyF cb limit fuel =
      some (FetchResult.consumerFailure,
        (List.range (j + 1)).map (fun m => applyF (m * limit) limit),
        (List.range (j + 1)).map (fun m => m * limit)) := by
  have h := fetchLoop_consumerFailure applyF cb limit j 0 fuel hfuel
    (fun m hm => by simpa using hne m hm)
    (fun m hm => by simpa using hcb m hm)
    (by simpa using hfail)
  unfold fetchEvents
  rw [h]
  simp

theorem fetchEvents_callback_failure_stops_ex :
    fetchEvents (fun o _ => [o + 1])
      (fun l => decide (l ≠ [21])) 20 2
      = some (FetchResult.consumerFailure, [[1], [21]], [0, 20]) := by
  rw [fetchEvents_callback_failure_stops (fun o _ => [o + 1])
    (fun l => decide (l ≠ [21])) 20 2 1 (by decide)
    (fun m hm => by interval_cases m <;> decide)
    (fun m hm => by interval_cases m <;> decide)
    (by decide)]
  decide

/-- C8: for every filter and pageSize, if the filter returns an empty
page at offset `k*pageSize`, non-empty pages at every smaller multiple
of `pageSize`, and the callback completes on each of those, then
`fetchEvents` terminates after exactly `k + 1` filter applications. -/
theorem fetchEvents_application_count (applyF : Nat → Nat → List α)
    (cb : List α → Bool) (limit fuel k : Nat) (hfuel : k < fuel)
    (hempty : applyF (k * limit) limit = [])
    (hne : ∀ j, j < k → applyF (j * limit) limit ≠ [])
    (hcb : ∀ j, j < k → cb (applyF (j * limit) limit) = true) :
    ∃ pages offsets, fetchEvents applyF cb limit fuel
      = some (FetchResult.ok, pages, offsets) ∧ offsets.length = k + 1 := by
  have h := fetchLoop_ok applyF cb limit k 0 fuel hfuel
    (by simpa using hempty)
    (fun j hj => by simpa using hne j hj)
    (fun j hj => by simpa using hcb j hj)
  exact ⟨_, _, h, by simp⟩

theorem fetchEvents_application_count_ex :
    ∃ pages offsets,
      fetchEvents
        (fun o _ => if o = 0 then [1, 2] else if o = 20 then [4, 5, 6] else [])
        (fun _ => true) 20 5
        = some (FetchResult.ok, pages, offsets) ∧ offsets.length = 3 :=
  fetchEvents_application_count
    (fun o _ => if o = 0 then [1, 2] else if o = 20 then [4, 5, 6] else ([] : List Nat))
    (fun _ => true) 20 5 2 (by decide) (by decide)
    (fun j hj => by interval_cases j <;> decide)
    (fun j hj => by interval_cases j <;> decide)

theorem fetchLoop_pages_nonempty (applyF : Nat → Nat → List α)
    (cb : List α → Bool) (limit : Nat) :
    ∀ fuel offset res pages offsets,
      fetchLoop applyF cb limit offset fuel = some (res, pages, offsets) →
      ∀ p, p ∈ pages → p ≠ [] := by
  intro fuel
  induction fuel with
  | zero =>
    intro offset res pages offsets h
    simp [fetchLoop] at h
  | succ fuel ih =>
    intro offset res pages offsets h
    rw [fetchLoop] at h
    by_cases he : (applyF offset limit).length = 0
    · rw [if_pos he] at h
      simp only [Option.some.injEq, Prod.mk.injEq] at h
      obtain ⟨-, h2, -⟩ := h
      subst h2
      intro p hp
      simp at hp
    · rw [if_neg he] at h
      by_cases hc : cb (applyF offset limit) = true
      · rw [if_pos hc] at h
        cases hrec : fetchLoop applyF cb limit (offset + limit) fuel with
        | none =>
          rw [hrec] at h
          simp at h
        | some v =>
          obtain ⟨res', pages', offsets'⟩ := v
          rw [hrec] at h
          simp only [Option.some.injEq, Prod.mk.injEq] at h
          obtain ⟨-, h2, -⟩ := h
          subst h2
          intro p hp
          rcases List.mem_cons.mp hp with rfl | hp'
          · intro hcon
            exact he (by simp [hcon])
          · exact ih (offset + limit) res' pages' offsets' hrec p hp'
      · rw [if_neg hc] at h
        simp only [Option.some.injEq, Prod.mk.injEq] at h
        obtain ⟨-, h2, -⟩ := h
        subst h2
        intro p hp
        simp only [List.mem_singleton] at hp
        subst hp
        intro hcon
        exact he (by simp [hcon])

/-- C10: every invocation of `onPage` made by `fetchEvents` receives a
non-empty page — whatever the filter, the callback, the page size, the
fuel and the outcome of the run. -/
theorem fetchEvents_onPage_never_empty (applyF : Nat → Nat → List α)
    (cb : List α → Bool) (limit fuel : Nat) (res : FetchResult)
    (pages : List (List α)) (offsets : List Nat)
    (h : fetchEvents applyF cb limit fuel = some (res, pages, offsets)) :
    ∀ p, p ∈ pages → p ≠ [] :=
  fetchLoop_pages_nonempty applyF cb limit fuel 0 res pages offsets h

theorem fetchEvents_onPage_never_empty_ex :
    [5] ≠ ([] : List Nat) :=
  fetchEvents_onPage_never_empty
    (fun o _ => if o = 0 then [5] else []) (fun _ => true) 20 2
    FetchResult.ok [[5]] [0, 20] rfl [5] (by decide)

/-- The `type` field of an ABI descriptor
(src/index.ts lines 5-10). -/
inductive AbiType where
  | function
  | constructorType
  | event
  | fallback
  | receive
  deriving DecidableEq, Repr

/-- The `stateMutability` field of an ABI descriptor
(src/index.ts line 12). -/
inductive StateMutabilityType where
  | pure
  | view
  | nonpayable
  | payable
  deriving DecidableEq, Repr

/-- An ABI descriptor (src/index.ts lines 14-24), restricted to the
fields `getContract` inspects: the optional `name`, the `type` and the
optional `stateMutability`.  The remaining fields (inputs, outputs,
gas, …) are only carried opaquely into the wrappers and are irrelevant
to the partitioning. -/
structure AbiItem where
  name : Option String
  type : AbiType
  stateMutability : Option StateMutabilityType
  deriving DecidableEq, Repr

/-- The `Contract` value built by `getContract` (src/index.ts lines
85-98 and 208-232).  Each table records, in iteration order, the
assignments performed on the corresponding record: an entry `(nm, it)`
in `constant` stands for
`contract.methods.constant[nm] = defineConstant(address, it)`, in
`signed` for `defineSignedRequest(address, it)`, in `clause` for
`defineClause(address, it)`, and in `events` for
`connex.thor.account(address).event(it)` — the closures themselves
delegate to the opaque connex library.  `address` models
`getAddress: () => address`. -/
structure Contract where
  constant : List (String × AbiItem)
  signed : List (String × AbiItem)
  clause : List (String × AbiItem)
  events : List (String × AbiItem)
  address : String
  deriving DecidableEq, Repr

/-- One iteration of the `for (const item of abi)` loop of `getContract`
(src/index.ts lines 215-229): a named descriptor of type `function`
goes into `constant` when `stateMutability === "view"`, otherwise into
both `signed` and `clause`; a named descriptor of type `event` goes
into `events`; anything else is skipped. -/
def bindItem (c : Contract) (item : AbiItem) : Contract :=
  match item.name with
  | some nm =>
    if item.type = AbiType.function then
      if item.stateMutability = some StateMutabilityType.view then
        { c with constant := c.constant ++ [(nm, item)] }
      else
        { c with signed := c.signed ++ [(nm, item)],
                 clause := c.clause ++ [(nm, item)] }
    else if item.type = AbiType.event then
      { c with events := c.events ++ [(nm, item)] }
    else c
  | none => c

/-- `getContract(abi, address)` (src/index.ts lines 208-232): starts
from empty tables and folds `bindItem` over the ABI list. -/
def getContract (abi : List AbiItem) (address : String) : Contract :=
  abi.foldl bindItem
    { constant := [], signed := [], clause := [], events := [],
      address := address }

theorem bindItem_constant (c : Contract) (a : AbiItem) (nm : String)
    (item : AbiItem) :
    (nm, item) ∈ (bindItem c a).constant ↔
      (nm, item) ∈ c.constant ∨
        (a.name = some nm ∧ a.type = AbiType.function ∧
          a.stateMutability = some StateMutabilityType.view ∧ item = a) := by
  unfold bindItem
  rcases hname : a.name with - | nm'
  · simp [hname]
  · simp only [hname]
    by_cases ht : a.type = AbiType.function
    · rw [if_pos ht]
      by_cases hm : a.stateMutability = some StateMutabilityType.view
      · rw [if_pos hm]
        show (nm, item) ∈ c.constant ++ [(nm', a)] ↔ _
        simp only [List.mem_append, List.mem_singleton, Prod.mk.injEq]
        constructor
        · rintro (h | ⟨rfl, rfl⟩)
          · exact Or.inl h
          · exact Or.inr ⟨rfl, ht, hm, rfl⟩
        · rintro (h | ⟨h1, -, -, rfl⟩)
          · exact Or.inl h
          · have hnm : nm' = nm := Option.some.inj h1
            exact Or.inr ⟨hnm.symm, rfl⟩
      · rw [if_neg hm]
        show (nm, item) ∈ c.constant ↔ _
        constructor
        · exact fun h => Or.inl h
        · rintro (h | ⟨-, -, hv, -⟩)
          · exact h
          · exact absurd hv hm
    · rw [if_neg ht]
      by_cases he : a.type = AbiType.event
      · rw [if_pos he]
        show (nm, item) ∈ c.constant ↔ _
        constructor
        · exact fun h => Or.inl h
        · rintro (h | ⟨-, hf, -, -⟩)
          · exact h
          · exact absurd hf ht
      · rw [if_neg he]
        constructor
        · exact fun h => Or.inl h
        · rintro (h | ⟨-, hf, -, -⟩)
          · exact h
          · exact absurd hf ht

theorem bindItem_signed (c : Contract) (a : AbiItem) (nm : String)
    (item : AbiItem) :
    (nm, item) ∈ (bindItem c a).signed ↔
      (nm, item) ∈ c.signed ∨
        (a.name = some nm ∧ a.type = AbiType.function ∧
          a.stateMutability ≠ some StateMutabilityType.view ∧ item = a) := by
  unfold bindItem
  rcases hname : a.name with - | nm'
  · simp [hname]
  · simp only [hname]
    by_cases ht : a.type = AbiType.function
    · rw [if_pos ht]
      by_cases hm : a.stateMutability = some StateMutabilityType.view
      · rw [if_pos hm]
        show (nm, item) ∈ c.signed ↔ _
        constructor
        · exact fun h => Or.inl h
        · rintro (h | ⟨-, -, hv, -⟩)
          · exact h
          · exact absurd hm hv
      · rw [if_neg hm]
        show (nm, item) ∈ c.signed ++ [(nm', a)] ↔ _
        simp only [List.mem_append, List.mem_singleton, Prod.mk.injEq]
        constructor
        · rintro (h | ⟨rfl, rfl⟩)
          · exact Or.inl h
          · exact Or.inr ⟨rfl, ht, hm, rfl⟩
        · rintro (h | ⟨h1, -, -, rfl⟩)
          · exact Or.inl h
          · have hnm : nm' = nm := Option.some.inj h1
            exact Or.inr ⟨hnm.symm, rfl⟩
    · rw [if_neg ht]
      by_cases he : a.type = AbiType.event
      · rw [if_pos he]
        show (nm, item) ∈ c.signed ↔ _
        constructor
        · exact fun h => Or.inl h
        · rintro (h | ⟨-, hf, -, -⟩)
          · exact h
          · exact absurd hf ht
      · rw [if_neg he]
        constructor
        · exact fun h => Or.inl h
        · rintro (h | ⟨-, hf, -, -⟩)
          · exact h
          · exact absurd hf ht

theorem bindItem_clause (c : Contract) (a : AbiItem) (nm : String)
    (item : AbiItem) :
    (nm, item) ∈ (bindItem c a).clause ↔
      (nm, item) ∈ c.clause ∨
        (a.name = some nm ∧ a.type = AbiType.function ∧
          a.stateMutability ≠ some StateMutabilityType.view ∧ item = a) := by
  unfold bindItem
  rcases hname : a.name with - | nm'
  · simp [hname]
  · simp only [hname]
    by_cases ht : a.type = AbiType.function
    · rw [if_pos ht]
      by_cases hm : a.stateMutability = some StateMutabilityType.view
      · rw [if_pos hm]
        show (nm, item) ∈ c.clause ↔ _
        constructor
        · exact fun h => Or.inl h
        · rintro (h | ⟨-, -, hv, -⟩)
          · exact h
          · exact absurd hm hv
      · rw [if_neg hm]
        show (nm, item) ∈ c.clause ++ [(nm', a)] ↔ _
        simp only [List.mem_append, List.mem_singleton, Prod.mk.injEq]
        constructor
        · rintro (h | ⟨rfl, rfl⟩)
          · exact Or.inl h
          · exact Or.inr ⟨rfl, ht, hm, rfl⟩
        · rintro (h | ⟨h1, -, -, rfl⟩)
          · exact Or.inl h
          · have hnm : nm' = nm := Option.some.inj h1
            exact Or.inr ⟨hnm.symm, rfl⟩
    · rw [if_neg ht]
      by_cases he : a.type = AbiType.event
      · rw [if_pos he]
        show (nm, item) ∈ c.clause ↔ _
        constructor
        · exact fun h => Or.inl h
        · rintro (h | ⟨-, hf, -, -⟩)
          · exact h
          · exact absurd hf ht
      · rw [if_neg he]
        constructor
        · exact fun h => Or.inl h
        · rintro (h | ⟨-, hf, -, -⟩)
          · exact h
          · exact absurd hf ht

theorem bindItem_events (c : Contract) (a : AbiItem) (nm : String)
    (item : AbiItem) :
    (nm, item) ∈ (bindItem c a).events ↔
      (nm, item) ∈ c.events ∨
        (a.name = some nm ∧ a.type = AbiType.event ∧ item = a) := by
  unfold bindItem
  rcases hname : a.name with - | nm'
  · simp [hname]
  · simp only [hname]
    by_cases ht : a.type = AbiType.function
    · rw [if_pos ht]
      by_cases hm : a.stateMutability = some StateMutabilityType.view
      · rw [if_pos hm]
        show (nm, item) ∈ c.events ↔ _
        constructor
        · exact fun h => Or.inl h
        · rintro (h | ⟨-, he, -⟩)
          · exact h
          · cases ht.symm.trans he
      · rw [if_neg hm]
        show (nm, item) ∈ c.events ↔ _
        constructor
        · exact fun h => Or.inl h
        · rintro (h | ⟨-, he, -⟩)
          · exact h
          · cases ht.symm.trans he
    · rw [if_neg ht]
      by_cases he : a.type = AbiType.event
      · rw [if_pos he]
        show (nm, item) ∈ c.events ++ [(nm', a)] ↔ _
        simp only [List.mem_append, List.mem_singleton, Prod.mk.injEq]
        constructor
        · rintro (h | ⟨rfl, rfl⟩)
          · exact Or.inl h
          · exact Or.inr ⟨rfl, he, rfl⟩
        · rintro (h | ⟨h1, -, rfl⟩)
          · exact Or.inl h
          · have hnm : nm' = nm := Option.some.inj h1
            exact Or.inr ⟨hnm.symm, rfl⟩
      · rw [if_neg he]
        constructor
        · exact fun h => Or.inl h
        · rintro (h | ⟨-, hev, -⟩)
          · exact h
          · exact absurd hev he

theorem foldl_bindItem_constant (abi : List AbiItem) :
    ∀ (c : Contract) (nm : String) (item : AbiItem),
      (nm, item) ∈ (abi.foldl bindItem c).constant ↔
        (nm, item) ∈ c.constant ∨
          (item ∈ abi ∧ item.name = some nm ∧ item.type = AbiType.function ∧
            item.stateMutability = some StateMutabilityType.view) := by
  induction abi with
  | nil => intro c nm item; simp
  | cons a abi ih =>
    intro c nm item
    rw [List.foldl_cons, ih (bindItem c a) nm item, bindItem_constant]
    constructor
    · rintro ((h | ⟨h1, h2, h3, rfl⟩) | ⟨hmem, h1, h2, h3⟩)
      · exact Or.inl h
      · exact Or.inr ⟨List.mem_cons_self _ _, h1, h2, h3⟩
      · exact Or.inr ⟨List.mem_cons_of_mem a hmem, h1, h2, h3⟩
    · rintro (h | ⟨hmem, h1, h2, h3⟩)
      · exact Or.inl (Or.inl h)
      · rcases List.mem_cons.mp hmem with rfl | hmem'
        · exact Or.inl (Or.inr ⟨h1, h2, h3, rfl⟩)
        · exact Or.inr ⟨hmem', h1, h2, h3⟩

theorem foldl_bindItem_signed (abi : List AbiItem) :
    ∀ (c : Contract) (nm : String) (item : AbiItem),
      (nm, item) ∈ (abi.foldl bindItem c).signed ↔
        (nm, item) ∈ c.signed ∨
          (item ∈ abi ∧ item.name = some nm ∧ item.type = AbiType.function ∧
            item.stateMutability ≠ some StateMutabilityType.view) := by
  induction abi with
  | nil => intro c nm item; simp
  | cons a abi ih =>
    intro c nm item
    rw [List.foldl_cons, ih (bindItem c a) nm item, bindItem_signed]
    constructor
    · rintro ((h | ⟨h1, h2, h3, rfl⟩) | ⟨hmem, h1, h2, h3⟩)
      · exact Or.inl h
      · exact Or.inr ⟨List.mem_cons_self _ _, h1, h2, h3⟩
      · exact Or.inr ⟨List.mem_cons_of_mem a hmem, h1, h2, h3⟩
    · rintro (h | ⟨hmem, h1, h2, h3⟩)
      · exact Or.inl (Or.inl h)
      · rcases List.mem_cons.mp hmem with rfl | hmem'
        · exact Or.inl (Or.inr ⟨h1, h2, h3, rfl⟩)
        · exact Or.inr ⟨hmem', h1, h2, h3⟩

theorem foldl_bindItem_clause (abi : List AbiItem) :
    ∀ (c : Contract) (nm : String) (item : AbiItem),
      (nm, item) ∈ (abi.foldl bindItem c).clause ↔
        (nm, item) ∈ c.clause ∨
          (item ∈ abi ∧ item.name = some nm ∧ item.type = AbiType.function ∧
            item.stateMutability ≠ some StateMutabilityType.view) := by
  induction abi with
  | nil => intro c nm item; simp
  | cons a abi ih =>
    intro c nm item
    rw [List.foldl_cons, ih (bindItem c a) nm item, bindItem_clause]
    constructor
    · rintro ((h | ⟨h1, h2, h3, rfl⟩) | ⟨hmem, h1, h2, h3⟩)
      · exact Or.inl h
      · exact Or.inr ⟨List.mem_cons_self _ _, h1, h2, h3⟩
      · exact Or.inr ⟨List.mem_cons_of_mem a hmem, h1, h2, h3⟩
    · rintro (h | ⟨hmem, h1, h2, h3⟩)
      · exact Or.inl (Or.inl h)
      · rcases List.mem_cons.mp hmem with rfl | hmem'
        · exact Or.inl (Or.inr ⟨h1, h2, h3, rfl⟩)
        · exact Or.inr ⟨hmem', h1, h2, h3⟩

theorem foldl_bindItem_events (abi : List AbiItem) :
    ∀ (c : Contract) (nm : String) (item : AbiItem),
      (nm, item) ∈ (abi.foldl bindItem c).events ↔
        (nm, item) ∈ c.events ∨
          (item ∈ abi ∧ item.name = some nm ∧ item.type = AbiType.event) := by
  induction abi with
  | nil => intro c nm item; simp
  | cons a abi ih =>
    intro c nm item
    rw [List.foldl_cons, ih (bindItem c a) nm item, bindItem_events]
    constructor
    · rintro ((h | ⟨h1, h2, rfl⟩) | ⟨hmem, h1, h2⟩)
      · exact Or.inl h
      · exact Or.inr ⟨List.mem_cons_self _ _, h1, h2⟩
      · exact Or.inr ⟨List.mem_cons_of_mem a hmem, h1, h2⟩
    · rintro (h | ⟨hmem, h1, h2⟩)
      · exact Or.inl (Or.inl h)
      · rcases List.mem_cons.mp hmem with rfl | hmem'
        · exact Or.inl (Or.inr ⟨h1, h2, rfl⟩)
        · exact Or.inr ⟨hmem', h1, h2⟩

/-- C9: for every ABI list and address, `getContract` places a named
`function` descriptor with `stateMutability == view` exactly into the
`constant` table, places every other named `function` descriptor
exactly into both the `signed` and the `clause` tables, places a named
`event` descriptor exactly into the `events` table, and unnamed
descriptors into no table: an entry appears in a table if and only if a
matching descriptor is in the ABI list. -/
theorem getContract_partitions (abi : List AbiItem) (address : String)
    (nm : String) (item : AbiItem) :
    ((nm, item) ∈ (getContract abi address).constant ↔
      (item ∈ abi ∧ item.name = some nm ∧ item.type = AbiType.function ∧
        item.stateMutability = some StateMutabilityType.view)) ∧
    ((nm, item) ∈ (getContract abi address).signed ↔
      (item ∈ abi ∧ item.name = some nm ∧ item.type = AbiType.function ∧
        item.stateMutability ≠ some StateMutabilityType.view)) ∧
    ((nm, item) ∈ (getContract abi address).clause ↔
      (item ∈ abi ∧ item.name = some nm ∧ item.type = AbiType.function ∧
        item.stateMutability ≠ some StateMutabilityType.view)) ∧
    ((nm, item) ∈ (getContract abi address).events ↔
      (item ∈ abi ∧ item.name = some nm ∧ item.type = AbiType.event)) := by
  unfold getContract
  refine ⟨?_, ?_, ?_, ?_⟩
  · rw [foldl_bindItem_constant]
    simp
  · rw [foldl_bindItem_signed]
    simp
  · rw [foldl_bindItem_clause]
    simp
  · rw [foldl_bindItem_events]
    simp

end WrappedConnex
